import Mathlib

/-!
Verification of the NuDB core against its specification.

This file shallowly embeds the parts of the NuDB sources that the checked
claims are about:

* the base-128 style varint codec of src/include/nudb/detail/varint.hpp
  (which actually uses base 127);
* the positioned write and the erase operation of
  src/include/nudb/impl/posix_file.ipp, modelled over an explicit list of
  syscall outcomes;
* the offline rekey procedure of src/include/nudb/impl/rekey.ipp, modelled
  as a state machine over the bytes of the data file together with a trace
  of the file operations rekey performs.

Machine integers are embedded as Nat; where C++ overflow is observable
(the accumulator of read_varint is a std::size_t) the arithmetic is taken
mod 2 ^ 64 explicitly.  Components of the repository that are not among
the provided sources (detail/format.hpp and detail/bulkio.hpp: the header
structures, bucket operations, bucket_index, ceil_pow2, bucket_capacity,
pepper, and the bulk reader/writer) are modelled from the specification
text; each such definition says so in its doc comment.

Recursive functions are written with an explicit fuel argument and a
wrapper supplying sufficient fuel, so that every definition evaluates by
kernel reduction on concrete inputs.
-/

set_option maxRecDepth 8000

namespace NuDB

/-! ## Byte-level helpers -/

/-- Decode a big-endian byte sequence into a natural number
(detail::field decoding, spec section 4.1: fixed-width big-endian). -/
def beDecode (l : List Nat) : Nat := l.foldl (fun a d => a * 256 + d) 0

/-- Encode a 64-bit value as 8 big-endian bytes (spec section 6.1,
salt_as_8_big_endian_bytes). -/
def be64 (v : Nat) : List Nat :=
  [v / 2 ^ 56 % 256, v / 2 ^ 48 % 256, v / 2 ^ 40 % 256, v / 2 ^ 32 % 256,
   v / 2 ^ 24 % 256, v / 2 ^ 16 % 256, v / 2 ^ 8 % 256, v % 256]

/-! ## varint.hpp -/

/-- Fuel-indexed loop of size_varint (varint.hpp lines 79-90): counts the
do-while iterations of v /= 127. -/
def size_varintF : Nat → Nat → Nat
  | 0, _ => 0
  | fuel + 1, v => if v / 127 = 0 then 1 else size_varintF fuel (v / 127) + 1

/-- size_varint from varint.hpp: the number of bytes write_varint emits. -/
def size_varint (v : Nat) : Nat := size_varintF (v + 1) v

/-- Fuel-indexed loop of write_varint (varint.hpp lines 92-110): emits the
base-127 digits of v, least significant first, setting bit 0x80 on every
byte that has a successor. -/
def write_varintF : Nat → Nat → List Nat
  | 0, _ => []
  | fuel + 1, v =>
    if v / 127 = 0 then [v % 127]
    else (v % 127 ||| 128) :: write_varintF fuel (v / 127)

/-- write_varint from varint.hpp, as the list of bytes stored at p0.  The
source returns the byte count, which is the length of this list. -/
def write_varint (v : Nat) : List Nat := write_varintF (v + 1) v

/-- Fuel-indexed scan loop of read_varint (varint.hpp lines 51-55): advance
n while byte n has bit 0x80, failing when n reaches buflen; on success the
result is the consumed byte count n + 1 (checked against buflen). -/
def scan_varintF (buf : List Nat) (buflen : Nat) : Nat → Nat → Option Nat
  | 0, _ => none
  | fuel + 1, n =>
    if buf.getD n 0 &&& 128 ≠ 0 then
      if buflen ≤ n + 1 then none else scan_varintF buf buflen fuel (n + 1)
    else if buflen < n + 1 then none
    else some (n + 1)

/-- The scan phase of read_varint, started at index 0. -/
def scan_varint (buf : List Nat) (buflen : Nat) : Option Nat :=
  scan_varintF buf buflen (buflen + 1) 0

/-- Accumulation loop of read_varint (varint.hpp lines 63-73), processing
the consumed bytes from the most significant (index used - 1) down to index
0: t := t * 127 + (byte &&& 0x7f) in std::size_t arithmetic (mod 2 ^ 64),
failing when t fails to strictly increase (the overflow check t <= t0).
The argument list is the consumed bytes most-significant-first. -/
def accum_varint : List Nat → Nat → Option Nat
  | [], t => some t
  | d :: ds, t =>
    let t1 := (t * 127 + (d &&& 127)) % 2 ^ 64
    if t1 ≤ t then none else accum_varint ds t1

/-- read_varint from varint.hpp lines 42-74: returns (consumed bytes, t) on
success and none where the source returns 0.  The special case for a single
zero byte (lines 58-62) is kept. -/
def read_varint (buf : List Nat) (buflen : Nat) : Option (Nat × Nat) :=
  match scan_varint buf buflen with
  | none => none
  | some used =>
    if used = 1 ∧ buf.getD 0 0 = 0 then some (1, 0)
    else
      match accum_varint ((buf.take used).reverse) 0 with
      | none => none
      | some t => some (used, t)

/-! ## posix_file.ipp: write and erase -/

/-- Outcome of a single ::pwrite call: -1 with errno, or a byte count. -/
inductive PwriteResult
  | fail (errno : Nat)
  | wrote (n : Nat)
deriving DecidableEq

/-- Error values the posix_file error_code overloads can report: a system
errno, or one of the nudb error enum values of error.hpp lines 22-32. -/
inductive PosixErr
  | sys (errno : Nat)
  | shortRead
  | shortWrite
deriving DecidableEq

/-- Result of the modelled write loop.  noResult means the supplied list of
pwrite outcomes ran out while bytes were still pending. -/
inductive WriteOutcome
  | ok
  | err (e : PosixErr)
  | noResult
deriving DecidableEq

/-- posix_file::write(offset, buffer, bytes, ec) from posix_file.ipp lines
269-287: loop while bytes > 0; pwrite returning -1 reports errno through
ec, pwrite returning 0 reports error::short_read (sic, line 281), and a
positive return advances.  The list holds one outcome per pwrite call. -/
def posix_file_write (bytes : Nat) : List PwriteResult → WriteOutcome
  | [] => if bytes = 0 then .ok else .noResult
  | r :: rs =>
    if bytes = 0 then .ok
    else
      match r with
      | .fail errno => .err (.sys errno)
      | .wrote 0 => .err .shortRead
      | .wrote (n + 1) => posix_file_write (bytes - (n + 1)) rs

/-- posix_file::write(offset, buffer, bytes) from posix_file.ipp lines
248-267 (the throwing overload): a zero pwrite return throws
file_short_write_error, named here by shortWrite. -/
def posix_file_write_throwing (bytes : Nat) : List PwriteResult → Except PosixErr Unit
  | [] => if bytes = 0 then .ok () else .ok ()
  | r :: rs =>
    if bytes = 0 then .ok ()
    else
      match r with
      | .fail errno => .error (.sys errno)
      | .wrote 0 => .error .shortWrite
      | .wrote (n + 1) => posix_file_write_throwing (bytes - (n + 1)) rs

/-- Outcome of ::unlink(path). -/
inductive UnlinkResult
  | ok
  | fail (errno : Nat)
deriving DecidableEq

/-- The POSIX errno for a missing path. -/
def ENOENT : Nat := 2

/-- posix_file::erase(path, ec) from posix_file.ipp lines 170-181: an
unlink failure with errno ENOENT is swallowed; any other errno is reported
through ec.  The result is the error code set, none meaning success. -/
def posix_file_erase (r : UnlinkResult) : Option Nat :=
  match r with
  | .ok => none
  | .fail ev => if ev ≠ ENOENT then some ev else none

/-- posix_file::erase(path) from posix_file.ipp lines 154-168 (the throwing
overload): returns true on success, false when the file did not exist, and
throws (modelled as Except.error carrying the errno) otherwise. -/
def posix_file_erase_throwing (r : UnlinkResult) : Except Nat Bool :=
  match r with
  | .ok => .ok true
  | .fail ev => if ev ≠ ENOENT then .error ev else .ok false

/-! ## The rekey model: buckets, headers, scan and trace -/

/-- A bucket entry (spec section 4.2): data-file offset, value size and
64-bit key hash. -/
structure Entry where
  offset : Nat
  size : Nat
  hash : Nat
deriving DecidableEq

/-- An in-memory bucket: entry list plus spill pointer (spec section 3,
Buckets in the key file). -/
structure Bucket where
  entries : List Entry
  spill : Nat
deriving DecidableEq

/-- A zero-initialized bucket (load kind "empty", spec section 4.2). -/
def Bucket.emptyB : Bucket := ⟨[], 0⟩

/-- Modelled from the spec: bucket insertion keeps entries sorted by hash
(spec section 4.2, lower_bound; detail/format.hpp is not among the provided
sources).  Inserts before the first entry of hash at least e.hash. -/
def insertSortedByHash (e : Entry) : List Entry → List Entry
  | [] => [e]
  | x :: xs => if e.hash ≤ x.hash then e :: x :: xs else x :: insertSortedByHash e xs

/-- bucket::insert(offset, size, hash) on the model. -/
def Bucket.insertEntry (b : Bucket) (off sz h : Nat) : Bucket :=
  { b with entries := insertSortedByHash ⟨off, sz, h⟩ b.entries }

/-- Modelled from the spec: bucket_capacity of detail/format.hpp is not
among the provided sources.  Spec section 3: capacity is
(block_size - header_overhead) / entry_size with a bucket header of
count:16 | spill:48 (8 bytes) and entries of offset:48 | size:48 | hash:64
(20 bytes), per the bit-exact layouts of section 6.1. -/
def bucket_capacity (blockSize : Nat) : Nat := (blockSize - 8) / 20

/-- Serialized size of a bucket payload: count:16 | spill:48 | entries
(spec section 6.1, bucket block). -/
def bucketActualSize (b : Bucket) : Nat := 8 + 20 * b.entries.length

/-- Modelled from the spec: maybe_spill of detail/format.hpp is not among
the provided sources.  Spec section 4.2 spill_to: when the bucket is full
its payload is appended to the data file as a spill record
(size:48 zero | bucket_size:16 | payload), the bucket is cleared, and the
record offset becomes the new spill pointer.  Returns the updated bucket,
the new append offset, and the (offset, length) of the spill write when one
occurred. -/
def maybe_spill (cap : Nat) (b : Bucket) (appendOff : Nat) :
    Bucket × Nat × Option (Nat × Nat) :=
  if cap ≤ b.entries.length then
    let len := 6 + 2 + bucketActualSize b
    ({ entries := [], spill := appendOff }, appendOff + len, some (appendOff, len))
  else (b, appendOff, none)

/-- Modelled from the spec: bucket_index of detail/format.hpp is not among
the provided sources.  Spec section 4.3: n = hash mod modulus, and if
n is at least buckets then n = hash mod (modulus / 2). -/
def bucket_index (h buckets modulus : Nat) : Nat :=
  let n := h % modulus
  if buckets ≤ n then h % (modulus / 2) else n

/-- Modelled from the spec: ceil_pow2 of detail/format.hpp is not among the
provided sources.  Spec glossary: the modulus is the smallest power of two
that is at least the bucket count.  Doubling loop with explicit fuel. -/
def ceil_pow2Go (n : Nat) : Nat → Nat → Nat
  | 0, p => p
  | fuel + 1, p => if n ≤ p then p else ceil_pow2Go n fuel (2 * p)

/-- The smallest power of two at least n (1 for n = 0). -/
def ceil_pow2 (n : Nat) : Nat := ceil_pow2Go n n 1

/-- The largest power of two at most n (0 for n = 0): the reading of claim
C3, which says the modulus is the next power of two less than or equal to
the bucket count.  Written only to be compared with ceil_pow2. -/
def floor_pow2Go (n : Nat) : Nat → Nat → Nat
  | 0, p => p
  | fuel + 1, p => if 2 * p ≤ n then floor_pow2Go n fuel (2 * p) else p

/-- The largest power of two at most n, per claim C3's wording. -/
def floor_pow2 (n : Nat) : Nat := if n = 0 then 0 else floor_pow2Go n n 1

/-- Modelled from the spec: pepper of detail/format.hpp is not among the
provided sources.  Spec section 6.1: pepper = hasher(salt encoded as 8
big-endian bytes), the hasher being constructed from the 64-bit salt seed
(section 6.2).  hasherF maps a seed and a byte string to a 64-bit digest. -/
def pepperOf (hasherF : Nat → List Nat → Nat) (salt : Nat) : Nat :=
  hasherF salt (be64 salt)

/-- The nudb on-disk format version written by rekey (currentVersion of
detail/format.hpp, not among the provided sources). -/
def currentVersion : Nat := 2

/-- Key file header fields (spec section 6.1). -/
structure KeyFileHeader where
  version : Nat
  uid : Nat
  appnum : Nat
  key_size : Nat
  salt : Nat
  pepper : Nat
  block_size : Nat
  load_factor : Nat
  buckets : Nat
  modulus : Nat
deriving DecidableEq

/-- Log file header fields (spec section 6.1). -/
structure LogFileHeader where
  version : Nat
  uid : Nat
  appnum : Nat
  key_size : Nat
  salt : Nat
  pepper : Nat
  block_size : Nat
  key_file_size : Nat
  dat_file_size : Nat
deriving DecidableEq

/-- The bucket count rekey computes (rekey.ipp lines 72-74):
ceil(itemCount / (bucket_capacity(block_size) * 0.5)).  With the fixed
load factor 0.5 this equals ceil(2 * itemCount / capacity), embedded
exactly over Nat (0 when the capacity is 0). -/
def rekeyBuckets (itemCount blockSize : Nat) : Nat :=
  (2 * itemCount + bucket_capacity blockSize - 1) / bucket_capacity blockSize

/-- The key file header rekey builds (rekey.ipp lines 62-75).  blockSize
stands for the value of block_size(key_path); salt for the value of
make_salt(). -/
def rekeyKh (hasherF : Nat → List Nat → Nat)
    (salt uid appnum keySize blockSize itemCount : Nat) : KeyFileHeader :=
  { version := currentVersion
    uid := uid
    appnum := appnum
    key_size := keySize
    salt := salt
    pepper := pepperOf hasherF salt
    block_size := blockSize
    load_factor := min 32768 65535
    buckets := rekeyBuckets itemCount blockSize
    modulus := ceil_pow2 (rekeyBuckets itemCount blockSize) }

/-- The log file header rekey builds (rekey.ipp lines 99-108). -/
def rekeyLh (hasherF : Nat → List Nat → Nat) (kh : KeyFileHeader)
    (dfSize : Nat) : LogFileHeader :=
  { version := currentVersion
    uid := kh.uid
    appnum := kh.appnum
    key_size := kh.key_size
    salt := kh.salt
    pepper := pepperOf hasherF kh.salt
    block_size := kh.block_size
    key_file_size := 0
    dat_file_size := dfSize }

/-- Scan parameters of one rekey pass: bucket capacity, key size, bucket
count, modulus, and the buffered window [b0, b1). -/
structure ScanParams where
  cap : Nat
  keySize : Nat
  buckets : Nat
  modulus : Nat
  b0 : Nat
  b1 : Nat
deriving DecidableEq

/-- State threaded through the data-file scan: the window of in-memory
buckets, the data-file append offset of the bulk writer, and the spill
writes (offset, length) issued so far in this pass. -/
structure ScanState where
  window : List Bucket
  appendOff : Nat
  spillWrites : List (Nat × Nat)
deriving DecidableEq

/-- Scan failure: a read past the end of the data file (short_read), or
fuel exhaustion of the model (unreachable under the wrapper). -/
inductive ScanErr
  | shortRead
  | fuelOut
deriving DecidableEq

/-- One rekey pass over the data-file bytes (rekey.ipp lines 169-216),
fuel-indexed.  bytes are the data-file bytes from the current reader
position to df_size; offset is the absolute file offset of that position.
Each iteration reads a 48-bit size; a positive size is a data record whose
key is hashed and, when its bucket index falls inside [b0, b1), inserted
into the window (spilling first when the bucket is full); a zero size is a
spill record, skipped over via its 16-bit size field.  The bulk reader of
detail/bulkio.hpp is not among the provided sources and is modelled from
the spec as a cursor that reports short_read when a read would pass the
end (spec section 4.1). -/
def scanDataF (P : ScanParams) (hashF : List Nat → Nat) :
    Nat → List Nat → Nat → ScanState → Except ScanErr ScanState
  | 0, _, _, _ => .error .fuelOut
  | _ + 1, [], _, st => .ok st
  | fuel + 1, b :: bs, offset, st =>
    let bytes := b :: bs
    if bytes.length < 6 then .error .shortRead
    else
      let size := beDecode (bytes.take 6)
      let rest6 := bytes.drop 6
      if 0 < size then
        if rest6.length < P.keySize + size then .error .shortRead
        else
          let key := rest6.take P.keySize
          let h := hashF key
          let n := bucket_index h P.buckets P.modulus
          let consumed := 6 + P.keySize + size
          if n < P.b0 ∨ P.b1 ≤ n then
            scanDataF P hashF fuel (bytes.drop consumed) (offset + consumed) st
          else
            let i := n - P.b0
            let r := maybe_spill P.cap (st.window.getD i Bucket.emptyB) st.appendOff
            scanDataF P hashF fuel (bytes.drop consumed) (offset + consumed)
              { window := st.window.set i ((r.1).insertEntry offset size h)
                appendOff := r.2.1
                spillWrites := st.spillWrites ++ (r.2.2).toList }
      else
        if rest6.length < 2 then .error .shortRead
        else
          let sz := beDecode (rest6.take 2)
          if rest6.length - 2 < sz then .error .shortRead
          else scanDataF P hashF fuel (bytes.drop (8 + sz)) (offset + 8 + sz) st

/-- One rekey pass with sufficient fuel. -/
def scanData (P : ScanParams) (hashF : List Nat → Nat)
    (bytes : List Nat) (offset : Nat) (st : ScanState) : Except ScanErr ScanState :=
  scanDataF P hashF (bytes.length + 1) bytes offset st

/-- The serialized form of a spill record (spec section 6.1):
size:48 of value zero | bucket_size:16 big-endian | bucket_bytes. -/
def encodeSpillRec (payload : List Nat) : List Nat :=
  0 :: 0 :: 0 :: 0 :: 0 :: 0 ::
    (payload.length / 256) :: (payload.length % 256) :: payload

/-- What one iteration of the rekey outer loop produces: the window bounds
and, from the scan, the final window and the spill writes. -/
structure PassOut where
  b0 : Nat
  b1 : Nat
  window : List Bucket
  spillWrites : List (Nat × Nat)
deriving DecidableEq

/-- The rekey outer loop (rekey.ipp lines 156-221), fuel-indexed.  c + 1 is
the chunk size; b0 advances by c + 1 per pass; each pass scans the whole
data file from offset 64 (the data file header size) with a window of
b1 - b0 empty buckets, the data-file append offset carried across passes. -/
def rekeyLoopF (cap keySize buckets modulus c : Nat) (hashF : List Nat → Nat)
    (dat : List Nat) : Nat → Nat → Nat → Except ScanErr (List PassOut)
  | 0, _, _ => .error .fuelOut
  | fuel + 1, b0, appendOff =>
    if buckets ≤ b0 then .ok []
    else
      let b1 := min (b0 + (c + 1)) buckets
      match scanDataF ⟨cap, keySize, buckets, modulus, b0, b1⟩ hashF
          (dat.length + 1) dat 64
          ⟨List.replicate (b1 - b0) Bucket.emptyB, appendOff, []⟩ with
      | .error e => .error e
      | .ok st =>
        match rekeyLoopF cap keySize buckets modulus c hashF dat fuel
            (b0 + (c + 1)) st.appendOff with
        | .error e => .error e
        | .ok rest => .ok (⟨b0, b1, st.window, st.spillWrites⟩ :: rest)

/-- The files rekey touches. -/
inductive FileId
  | dat
  | key
  | log
deriving DecidableEq

/-- File operations of the rekey trace, at the File-capability level of
spec section 6.2. -/
inductive Op
  | create (f : FileId)
  | write (f : FileId) (offset len : Nat)
  | sync (f : FileId)
  | closeF (f : FileId)
  | eraseF (f : FileId)
deriving DecidableEq

/-- The size of the serialized log file header (spec section 3: all three
files begin with a 64-byte fixed header). -/
def logHeaderSize : Nat := 64

/-- The trace a single pass contributes: its spill writes to the data file,
then the single window write to the key file at offset (b0 + 1) *
block_size of (b1 - b0) * block_size bytes (rekey.ipp lines 217-218). -/
def passOps (blockSize : Nat) (p : PassOut) : List Op :=
  p.spillWrites.map (fun w => Op.write .dat w.1 w.2) ++
    [Op.write .key ((p.b0 + 1) * blockSize) ((p.b1 - p.b0) * blockSize)]

/-- Everything a completed rekey produced: the two headers, the passes and
the file-operation trace. -/
structure RekeyOut where
  kh : KeyFileHeader
  lh : LogFileHeader
  passes : List PassOut
  ops : List Op
deriving DecidableEq

/-- rekey(dat_path, key_path, log_path, itemCount, bufferSize, ec) from
rekey.ipp, on its successful path (every file operation succeeds; a scan
failure is propagated).  dat holds the data-file bytes after its 64-byte
header; salt is the value of make_salt(); blockSize the value of
block_size(key_path); hasherF the configured hasher family, seed first.
The trace records, in source order (rekey.ipp lines 55, 78, 109, 112, 124,
127, 134, 139, the loop, 225, 226): log creation, key creation, the log
header write and sync, the key header write and sync, the one-byte
pre-allocation write and sync, each pass's writes, and the closing
erasure of the log. -/
def rekey (hasherF : Nat → List Nat → Nat)
    (salt uid appnum keySize blockSize itemCount bufferSize : Nat)
    (dat : List Nat) : Except ScanErr RekeyOut :=
  let kh := rekeyKh hasherF salt uid appnum keySize blockSize itemCount
  let dfSize := 64 + dat.length
  let lh := rekeyLh hasherF kh dfSize
  let chunk := max 1 (bufferSize / blockSize)
  match rekeyLoopF (bucket_capacity blockSize) keySize kh.buckets kh.modulus
      (chunk - 1) (fun key => hasherF salt key) dat (kh.buckets + 1) 0 dfSize with
  | .error e => .error e
  | .ok passes =>
    .ok { kh := kh
          lh := lh
          passes := passes
          ops := [Op.create .log, Op.create .key,
                  Op.write .log 0 logHeaderSize, Op.sync .log,
                  Op.write .key 0 blockSize, Op.sync .key,
                  Op.write .key ((kh.buckets + 1) * blockSize - 1) 1, Op.sync .key]
                ++ passes.foldr (fun p acc => passOps blockSize p ++ acc) []
                ++ [Op.closeF .log, Op.eraseF .log] }

/-- True on the operations that claim C2 says rekey never performs:
creating the file at log_path or writing bytes to it. -/
def createsOrWritesLog : Op → Bool
  | .create .log => true
  | .write .log _ _ => true
  | _ => false

/-- True on every operation that touches the log file. -/
def isLogTouch : Op → Bool
  | .create .log => true
  | .write .log _ _ => true
  | .sync .log => true
  | .closeF .log => true
  | .eraseF .log => true
  | _ => false

/-- True on positioned writes to the key file. -/
def isKeyWrite : Op → Bool
  | .write .key _ _ => true
  | _ => false

/-- The claimed chunk of claim C4: bufferSize / block_size, with no
guard against a zero quotient. -/
def spec_rekey_chunk (bufferSize blockSize : Nat) : Nat := bufferSize / blockSize

/-- The claimed pass count of claim C4: ceil(buckets / chunk), embedded
over Nat (0 when the chunk is 0).  Written only to be compared with the
pass count of the rekey model. -/
def spec_rekey_passes (buckets bufferSize blockSize : Nat) : Nat :=
  (buckets + spec_rekey_chunk bufferSize blockSize - 1) /
    spec_rekey_chunk bufferSize blockSize

/-- Largest offset + length over the key-file writes of a trace: the extent
to which the key file has been allocated. -/
def keyWriteExtent (ops : List Op) : Nat :=
  ops.foldl (fun a op => match op with
    | Op.write .key off len => max a (off + len)
    | _ => a) 0

/-- Denotation of a least-significant-first base-127 digit string, the
masking of the continuation bit included: the value read_varint
reconstructs when no overflow occurs. -/
def decodeLSB : List Nat → Nat
  | [] => 0
  | d :: ds => (d &&& 127) + 127 * decodeLSB ds

end NuDB

deriving instance DecidableEq for Except

namespace NuDB

/-! ## Small bitwise facts, settled by finite enumeration -/

theorem lor128_eq {x : Nat} (h : x < 128) : x ||| 128 = x + 128 := by
  have k : ∀ y, y < 128 → y ||| 128 = y + 128 := by decide
  exact k x h

theorem land127_small {x : Nat} (h : x < 128) : x &&& 127 = x := by
  have k : ∀ y, y < 128 → y &&& 127 = y := by decide
  exact k x h

theorem land127_of_lor128 {x : Nat} (h : x < 128) : (x ||| 128) &&& 127 = x := by
  have k : ∀ y, y < 128 → (y ||| 128) &&& 127 = y := by decide
  exact k x h

theorem land128_ne {x : Nat} (h1 : 128 ≤ x) (h2 : x < 256) : x &&& 128 ≠ 0 := by
  have k : ∀ y, y < 256 → 128 ≤ y → y &&& 128 ≠ 0 := by decide
  exact k x h2 h1

theorem land128_zero {x : Nat} (h : x < 128) : x &&& 128 = 0 := by
  have k : ∀ y, y < 128 → y &&& 128 = 0 := by decide
  exact k x h

/-! ## varint: unfolding equations and the round trip -/

theorem size_varintF_irrel : ∀ f g v, v < f → v < g →
    size_varintF f v = size_varintF g v := by
  intro f
  induction f with
  | zero => intro g v hf _; omega
  | succ f ih =>
    intro g v hf hg
    match g, hg with
    | g + 1, hg =>
      simp only [size_varintF]
      by_cases h : v / 127 = 0
      · simp [h]
      · have hv : 0 < v := by
          rcases Nat.eq_zero_or_pos v with h0 | h0
          · subst h0; simp at h
          · exact h0
        have hlt : v / 127 < v := Nat.div_lt_self hv (by norm_num)
        simp only [if_neg h]
        rw [ih g (v / 127) (by omega) (by omega)]

theorem size_varint_eq (v : Nat) :
    size_varint v = if v / 127 = 0 then 1 else size_varint (v / 127) + 1 := by
  have h0 : size_varint v = if v / 127 = 0 then 1 else size_varintF v (v / 127) + 1 := rfl
  rw [h0]
  by_cases h : v / 127 = 0
  · simp [h]
  · have hv : 0 < v := by
      rcases Nat.eq_zero_or_pos v with h0 | h0
      · subst h0; simp at h
      · exact h0
    have hlt : v / 127 < v := Nat.div_lt_self hv (by norm_num)
    simp only [if_neg h]
    rw [size_varintF_irrel v (v / 127 + 1) (v / 127) (by omega) (by omega)]
    rfl

theorem write_varintF_irrel : ∀ f g v, v < f → v < g →
    write_varintF f v = write_varintF g v := by
  intro f
  induction f with
  | zero => intro g v hf _; omega
  | succ f ih =>
    intro g v hf hg
    match g, hg with
    | g + 1, hg =>
      simp only [write_varintF]
      by_cases h : v / 127 = 0
      · simp [h]
      · have hv : 0 < v := by
          rcases Nat.eq_zero_or_pos v with h0 | h0
          · subst h0; simp at h
          · exact h0
        have hlt : v / 127 < v := Nat.div_lt_self hv (by norm_num)
        simp only [if_neg h]
        rw [ih g (v / 127) (by omega) (by omega)]

theorem write_varint_eq (v : Nat) :
    write_varint v = if v / 127 = 0 then [v % 127]
      else (v % 127 ||| 128) :: write_varint (v / 127) := by
  have h0 : write_varint v = if v / 127 = 0 then [v % 127]
      else (v % 127 ||| 128) :: write_varintF v (v / 127) := rfl
  rw [h0]
  by_cases h : v / 127 = 0
  · simp [h]
  · have hv : 0 < v := by
      rcases Nat.eq_zero_or_pos v with h0 | h0
      · subst h0; simp at h
      · exact h0
    have hlt : v / 127 < v := Nat.div_lt_self hv (by norm_num)
    simp only [if_neg h]
    rw [write_varintF_irrel v (v / 127 + 1) (v / 127) (by omega) (by omega)]
    rfl

theorem write_varint_length : ∀ v, (write_varint v).length = size_varint v := by
  intro v
  induction v using Nat.strong_induction_on with
  | _ v ih =>
    rw [write_varint_eq, size_varint_eq]
    by_cases h : v / 127 = 0
    · simp [h]
    · have hv : 0 < v := by
        rcases Nat.eq_zero_or_pos v with h0 | h0
        · subst h0; simp at h
        · exact h0
      have hlt : v / 127 < v := Nat.div_lt_self hv (by norm_num)
      simp [h, ih (v / 127) hlt]

theorem write_varint_decode : ∀ v, decodeLSB (write_varint v) = v := by
  intro v
  induction v using Nat.strong_induction_on with
  | _ v ih =>
    rw [write_varint_eq]
    by_cases h : v / 127 = 0
    · have hv : v < 127 := by
        rcases Nat.lt_or_ge v 127 with h1 | h1
        · exact h1
        · exact absurd h (by have := Nat.div_le_div_right (c := 127) h1; simp at this; omega)
      simp only [if_pos h, decodeLSB]
      rw [Nat.mod_eq_of_lt hv, land127_small (by omega)]
      omega
    · have hv : 0 < v := by
        rcases Nat.eq_zero_or_pos v with h0 | h0
        · subst h0; simp at h
        · exact h0
      have hlt : v / 127 < v := Nat.div_lt_self hv (by norm_num)
      simp only [if_neg h, decodeLSB]
      rw [land127_of_lor128 (Nat.mod_lt v (by norm_num) |>.trans (by norm_num)),
        ih (v / 127) hlt]
      omega

theorem write_varint_shape : ∀ v, ∃ w msd, write_varint v = w ++ [msd] ∧
    msd < 128 ∧ (1 ≤ v → 1 ≤ msd) ∧ ∀ d ∈ w, 128 ≤ d ∧ d < 256 := by
  intro v
  induction v using Nat.strong_induction_on with
  | _ v ih =>
    rw [write_varint_eq]
    by_cases h : v / 127 = 0
    · refine ⟨[], v % 127, by simp [h], Nat.mod_lt v (by norm_num) |>.trans (by norm_num), ?_, by simp⟩
      intro hv
      have hlt : v < 127 := by
        rcases Nat.lt_or_ge v 127 with h1 | h1
        · exact h1
        · exact absurd h (by have := Nat.div_le_div_right (c := 127) h1; simp at this; omega)
      rw [Nat.mod_eq_of_lt hlt]; exact hv
    · have hv : 0 < v := by
        rcases Nat.eq_zero_or_pos v with h0 | h0
        · subst h0; simp at h
        · exact h0
      have hlt : v / 127 < v := Nat.div_lt_self hv (by norm_num)
      obtain ⟨w, msd, hw, hm, hp, hall⟩ := ih (v / 127) hlt
      refine ⟨(v % 127 ||| 128) :: w, msd, by simp [h, hw], hm,
        fun _ => hp (by omega), ?_⟩
      intro d hd
      rcases List.mem_cons.mp hd with rfl | hd
      · have hx : v % 127 < 128 := Nat.mod_lt v (by norm_num) |>.trans (by norm_num)
        rw [lor128_eq hx]
        omega
      · exact hall d hd

theorem scan_varintF_go (w : List Nat) (hw : ∀ d ∈ w, d &&& 128 ≠ 0) :
    ∀ fuel pre msd rest buflen, msd &&& 128 = 0 →
      pre.length + w.length + 1 ≤ buflen → w.length + 1 ≤ fuel →
      scan_varintF (pre ++ w ++ msd :: rest) buflen fuel pre.length =
        some (pre.length + w.length + 1) := by
  induction w with
  | nil =>
    intro fuel pre msd rest buflen hm hlen hfuel
    match fuel, hfuel with
    | fuel + 1, _ =>
      simp only [scan_varintF]
      have hg : (pre ++ [] ++ msd :: rest).getD pre.length 0 = msd := by
        rw [List.append_nil, List.getD_eq_getElem?_getD,
          List.getElem?_append_right (Nat.le_refl _)]
        simp
      rw [hg, hm]
      simp only [ne_eq, not_true_eq_false, if_false]
      rw [if_neg (by simp at hlen; omega)]
      simp
  | cons d w ihw =>
    intro fuel pre msd rest buflen hm hlen hfuel
    match fuel, hfuel with
    | fuel + 1, hfuel =>
      simp only [scan_varintF]
      have hg : (pre ++ (d :: w) ++ msd :: rest).getD pre.length 0 = d := by
        rw [List.append_assoc, List.getD_eq_getElem?_getD,
          List.getElem?_append_right (Nat.le_refl _)]
        simp
      rw [hg, if_pos (hw d (by simp))]
      rw [if_neg (by simp [List.length_cons] at hlen; omega)]
      have hrec := ihw (fun x hx => hw x (by simp [hx])) fuel (pre ++ [d]) msd rest
        buflen hm (by simp at hlen ⊢; omega) (by simp at hfuel ⊢; omega)
      simp only [List.length_append, List.length_singleton] at hrec
      have harr : (pre ++ [d]) ++ w ++ msd :: rest = pre ++ (d :: w) ++ msd :: rest := by
        simp
      rw [harr] at hrec
      rw [hrec]
      simp only [List.length_cons]
      congr 1
      omega

theorem write_varint_cons : ∀ v, ∃ a l, write_varint v = a :: l ∧ (1 ≤ v → 1 ≤ a) := by
  intro v
  rw [write_varint_eq]
  by_cases h : v / 127 = 0
  · refine ⟨v % 127, [], by simp [h], ?_⟩
    intro hv
    have hlt : v < 127 := by
      rcases Nat.lt_or_ge v 127 with h1 | h1
      · exact h1
      · exact absurd h (by have := Nat.div_le_div_right (c := 127) h1; simp at this; omega)
    rw [Nat.mod_eq_of_lt hlt]; exact hv
  · refine ⟨v % 127 ||| 128, write_varint (v / 127), by simp [h], fun _ => ?_⟩
    have hx : v % 127 < 128 := Nat.mod_lt v (by norm_num) |>.trans (by norm_num)
    rw [lor128_eq hx]
    omega

theorem scan_varint_write (v : Nat) (rest : List Nat) (buflen : Nat)
    (hb : size_varint v ≤ buflen) :
    scan_varint (write_varint v ++ rest) buflen = some (size_varint v) := by
  obtain ⟨w, msd, hw, hm, _, hall⟩ := write_varint_shape v
  have hlen : (write_varint v).length = size_varint v := write_varint_length v
  rw [hw] at hlen ⊢
  simp only [List.length_append, List.length_singleton] at hlen
  have hgo := scan_varintF_go w (fun d hd => land128_ne (hall d hd).1 (hall d hd).2)
    (buflen + 1) [] msd rest buflen (land128_zero hm) (by simp; omega) (by omega)
  simp only [List.length_nil, List.nil_append] at hgo
  unfold scan_varint
  have harr : (w ++ [msd]) ++ rest = w ++ msd :: rest := by simp
  rw [harr, hgo]
  congr 1
  omega

theorem accum_varint_append_some (l1 l2 : List Nat) :
    ∀ t t2, accum_varint l1 t = some t2 →
      accum_varint (l1 ++ l2) t = accum_varint l2 t2 := by
  induction l1 with
  | nil =>
    intro t t2 h
    simp only [accum_varint, Option.some.injEq] at h
    subst h
    simp
  | cons d ds ih =>
    intro t t2 h
    simp only [accum_varint] at h
    simp only [List.cons_append, accum_varint]
    by_cases hg : (t * 127 + (d &&& 127)) % 2 ^ 64 ≤ t
    · rw [if_pos hg] at h
      exact absurd h (by simp)
    · rw [if_neg hg] at h
      rw [if_neg hg]
      exact ih _ _ h

theorem accum_varint_write : ∀ v t, (1 ≤ v ∨ 1 ≤ t) →
    t * 127 ^ size_varint v + v < 2 ^ 64 →
    accum_varint ((write_varint v).reverse) t = some (t * 127 ^ size_varint v + v) := by
  intro v
  induction v using Nat.strong_induction_on with
  | _ v ih =>
    intro t hpos hbound
    by_cases h : v / 127 = 0
    · have hv : v < 127 := by
        rcases Nat.lt_or_ge v 127 with h1 | h1
        · exact h1
        · exact absurd h (by have := Nat.div_le_div_right (c := 127) h1; simp at this; omega)
      have hsz : size_varint v = 1 := by rw [size_varint_eq, if_pos h]
      rw [hsz] at hbound ⊢
      rw [write_varint_eq, if_pos h]
      simp only [List.reverse_cons, List.reverse_nil, List.nil_append, accum_varint]
      rw [Nat.mod_eq_of_lt hv, land127_small (by omega)]
      rw [Nat.mod_eq_of_lt (by rw [pow_one] at hbound; omega)]
      rw [if_neg (by omega)]
      rw [pow_one]
    · have h1 : 1 ≤ v / 127 := Nat.pos_of_ne_zero h
      have hv : 0 < v := by
        rcases Nat.eq_zero_or_pos v with h0 | h0
        · subst h0; simp at h
        · exact h0
      have hlt : v / 127 < v := Nat.div_lt_self hv (by norm_num)
      have hsz : size_varint v = size_varint (v / 127) + 1 := by
        rw [size_varint_eq, if_neg h]
      set s := size_varint (v / 127) with hs
      have hboundIH : t * 127 ^ s + v / 127 < 2 ^ 64 := by
        have e1 : (127 : Nat) ^ s ≤ 127 ^ (s + 1) :=
          Nat.pow_le_pow_right (by norm_num) (by omega)
        have e2 : t * 127 ^ s ≤ t * 127 ^ (s + 1) := Nat.mul_le_mul_left t e1
        have e3 : v / 127 ≤ v := Nat.div_le_self v 127
        rw [hsz] at hbound
        omega
      rw [write_varint_eq, if_neg h]
      simp only [List.reverse_cons]
      rw [accum_varint_append_some _ _ t (t * 127 ^ s + v / 127)
        (ih (v / 127) hlt t (Or.inl h1) hboundIH)]
      simp only [accum_varint]
      rw [land127_of_lor128 (Nat.mod_lt v (by norm_num) |>.trans (by norm_num))]
      have hdm : 127 * (v / 127) + v % 127 = v := Nat.div_add_mod v 127
      have hval : (t * 127 ^ s + v / 127) * 127 + v % 127 = t * 127 ^ (s + 1) + v := by
        rw [pow_succ]
        ring_nf
        ring_nf at hdm
        omega
      have hlt2 : t * 127 ^ (s + 1) + v < 2 ^ 64 := by rw [hsz] at hbound; exact hbound
      have t2pos : 1 ≤ t * 127 ^ s + v / 127 := le_trans h1 (Nat.le_add_left _ _)
      rw [hval, Nat.mod_eq_of_lt hlt2, hsz]
      rw [if_neg (by rw [← hval]; set T := t * 127 ^ s + v / 127; omega)]

theorem read_varint_write (v : Nat) (rest : List Nat) (buflen : Nat)
    (hv : v < 2 ^ 64) (hb : size_varint v ≤ buflen) :
    read_varint (write_varint v ++ rest) buflen = some (size_varint v, v) := by
  unfold read_varint
  simp only [scan_varint_write v rest buflen hb]
  by_cases hv0 : v = 0
  · subst hv0
    have hw : write_varint 0 = [0] := by rw [write_varint_eq]; norm_num
    have hs : size_varint 0 = 1 := by rw [size_varint_eq]; norm_num
    rw [hw, hs]
    simp
  · have hv1 : 1 ≤ v := by omega
    obtain ⟨a, l, hal, hpos⟩ := write_varint_cons v
    have ha : 1 ≤ a := hpos hv1
    have hlen : (write_varint v).length = size_varint v := write_varint_length v
    have hne : ¬(size_varint v = 1 ∧ (write_varint v ++ rest).getD 0 0 = 0) := by
      rw [hal]
      rintro ⟨_, h2⟩
      simp [List.getD] at h2
      omega
    rw [if_neg hne]
    have htake : (write_varint v ++ rest).take (size_varint v) = write_varint v := by
      rw [← hlen]
      exact List.take_left _ _
    rw [htake]
    have hacc := accum_varint_write v 0 (Or.inl hv1) (by simpa using hv)
    simp only [Nat.zero_mul, Nat.zero_add] at hacc
    rw [hacc]

/-- C9: for every v representable in std::size_t, write_varint(buf, v)
writes exactly size_varint(v) bytes, and read_varint on that buffer with
any buflen at least size_varint(v) consumes size_varint(v) bytes and
yields t = v: write followed by read is the identity. -/
theorem varint_write_read_roundtrip (v : Nat) (rest : List Nat) (buflen : Nat)
    (hv : v < 2 ^ 64) (hb : size_varint v ≤ buflen) :
    (write_varint v).length = size_varint v ∧
    read_varint (write_varint v ++ rest) buflen = some (size_varint v, v) :=
  ⟨write_varint_length v, read_varint_write v rest buflen hv hb⟩

/-- Witness for C9: the round trip evaluated at v = 300 with a trailing
junk byte and buflen = 2. -/
theorem varint_write_read_roundtrip_witness :
    300 < 2 ^ 64 ∧ size_varint 300 ≤ 2 ∧
    ((write_varint 300).length = size_varint 300 ∧
      read_varint (write_varint 300 ++ [7]) 2 = some (size_varint 300, 300)) :=
  ⟨by norm_num, by decide, varint_write_read_roundtrip 300 [7] 2 (by norm_num) (by decide)⟩

/-! ## posix_file: the write error channel and erase -/

/-- C1 (evidence of the code bug): when pwrite stores zero bytes, the
error_code overload of posix_file::write reports error::short_read, while
the throwing overload at the same point throws file_short_write_error; the
two conditions are distinct members of the error taxonomy. -/
theorem posix_write_zero_pwrite_reports_short_read :
    posix_file_write 1 [PwriteResult.wrote 0] = WriteOutcome.err PosixErr.shortRead ∧
    posix_file_write_throwing 1 [PwriteResult.wrote 0] = Except.error PosixErr.shortWrite ∧
    PosixErr.shortRead ≠ PosixErr.shortWrite := by
  refine ⟨rfl, rfl, by decide⟩

/-- C10: an unlink failing with ENOENT is swallowed by the error_code
overload of posix_file::erase and turned into a false return by the
throwing overload; any other errno is reported by both. -/
theorem posix_erase_missing_file (ev : Nat) :
    posix_file_erase (UnlinkResult.fail ENOENT) = none ∧
    posix_file_erase_throwing (UnlinkResult.fail ENOENT) = Except.ok false ∧
    (ev ≠ ENOENT →
      posix_file_erase (UnlinkResult.fail ev) = some ev ∧
      posix_file_erase_throwing (UnlinkResult.fail ev) = Except.error ev) := by
  refine ⟨by decide, by decide, fun h => ⟨?_, ?_⟩⟩
  · simp [posix_file_erase, h]
  · simp [posix_file_erase_throwing, h]

/-- Witness for C10 at errno 13 (EACCES): the failure is reported through
both channels. -/
theorem posix_erase_missing_file_witness :
    posix_file_erase (UnlinkResult.fail 13) = some 13 ∧
    posix_file_erase_throwing (UnlinkResult.fail 13) = Except.error 13 :=
  (posix_erase_missing_file 13).2.2 (by decide)

/-! ## ceil_pow2: the modulus is the next power of two at least buckets -/

theorem ceil_pow2Go_spec (n : Nat) : ∀ fuel p, (∃ j, p = 2 ^ j) →
    (p ≤ 1 ∨ p / 2 < n) → n ≤ p * 2 ^ fuel →
    (∃ k, ceil_pow2Go n fuel p = 2 ^ k) ∧ n ≤ ceil_pow2Go n fuel p ∧
      ceil_pow2Go n fuel p / 2 < max 1 n := by
  intro fuel
  induction fuel with
  | zero =>
    intro p hpow hinv hreach
    simp only [ceil_pow2Go]
    rw [pow_zero, Nat.mul_one] at hreach
    refine ⟨hpow, hreach, ?_⟩
    rcases hinv with h | h
    · omega
    · omega
  | succ fuel ih =>
    intro p hpow hinv hreach
    simp only [ceil_pow2Go]
    by_cases h : n ≤ p
    · rw [if_pos h]
      refine ⟨hpow, h, ?_⟩
      rcases hinv with h1 | h1 <;> omega
    · rw [if_neg h]
      apply ih (2 * p)
      · obtain ⟨j, hj⟩ := hpow
        exact ⟨j + 1, by rw [hj, pow_succ]; ring⟩
      · right
        obtain ⟨j, hj⟩ := hpow
        have hp1 : 0 < p := hj ▸ pow_pos (by norm_num) j
        omega
      · calc n ≤ p * 2 ^ (fuel + 1) := hreach
          _ = 2 * p * 2 ^ fuel := by ring

theorem ceil_pow2_spec (n : Nat) :
    (∃ k, ceil_pow2 n = 2 ^ k) ∧ n ≤ ceil_pow2 n ∧ ceil_pow2 n / 2 < max 1 n := by
  refine ceil_pow2Go_spec n n 1 ⟨0, rfl⟩ (Or.inl (le_refl 1)) ?_
  rw [Nat.one_mul]
  exact (Nat.lt_two_pow n).le

/-- C3 counterexample: at itemCount = 300 and block size 4096 rekey builds
a header with bucket count 3 and modulus 4; the next power of two less
than or equal to 3 is 2, so the claimed relation fails. -/
theorem rekey_modulus_not_floor_pow2 :
    (rekeyKh (fun _ _ => 0) 0 0 0 8 4096 300).modulus ≠
      floor_pow2 (rekeyKh (fun _ _ => 0) 0 0 0 8 4096 300).buckets := by decide

/-- C3 amended: in every key file header produced by rekey the modulus is
the next power of two greater than or equal to the bucket count: it is a
power of two, at least the bucket count, and half of it is below the
bucket count (below 1 when there are no buckets). -/
theorem rekey_modulus_next_pow2_ge (hasherF : Nat → List Nat → Nat)
    (salt uid appnum keySize blockSize itemCount : Nat) :
    ∃ k, (rekeyKh hasherF salt uid appnum keySize blockSize itemCount).modulus = 2 ^ k ∧
      (rekeyKh hasherF salt uid appnum keySize blockSize itemCount).buckets ≤
        (rekeyKh hasherF salt uid appnum keySize blockSize itemCount).modulus ∧
      (rekeyKh hasherF salt uid appnum keySize blockSize itemCount).modulus / 2 <
        max 1 (rekeyKh hasherF salt uid appnum keySize blockSize itemCount).buckets := by
  obtain ⟨⟨k, hk⟩, h2, h3⟩ := ceil_pow2_spec (rekeyBuckets itemCount blockSize)
  exact ⟨k, hk, h2, h3⟩

/-! ## The rekey trace: log usage, pass count, window writes, allocation -/

theorem passOps_filter_isLogTouch (blockSize : Nat) (p : PassOut) :
    (passOps blockSize p).filter isLogTouch = [] := by
  unfold passOps
  rw [List.filter_append]
  have h1 : (p.spillWrites.map (fun w => Op.write .dat w.1 w.2)).filter isLogTouch = [] := by
    induction p.spillWrites with
    | nil => simp
    | cons a l ih => simp [isLogTouch, ih]
  rw [h1]
  simp [isLogTouch]

theorem foldr_passOps_filter_isLogTouch (blockSize : Nat) (ps : List PassOut) :
    (ps.foldr (fun p acc => passOps blockSize p ++ acc) []).filter isLogTouch = [] := by
  induction ps with
  | nil => simp
  | cons p ps ih => simp [List.filter_append, passOps_filter_isLogTouch, ih]

/-- C2 counterexample: a rekey invocation that runs to completion
(itemCount 1, bufferSize equal to the block size, empty data region)
performs operations that create the file at log_path and write bytes to
it. -/
theorem rekey_touches_log_counterexample :
    ((rekey (fun _ _ => 0) 0 0 0 8 4096 1 4096 []).map fun out =>
      out.ops.any createsOrWritesLog) = Except.ok true := by rfl

/-- C2 amended: a rekey invocation that runs to completion does use a log
file: it creates the file at log_path, writes the 64-byte log file header
to it and syncs it before touching the key file, and closes and erases it
after the last pass; it writes nothing else (no pre-images) to the log. -/
theorem rekey_log_ops (hasherF : Nat → List Nat → Nat)
    (salt uid appnum keySize blockSize itemCount bufferSize : Nat)
    (dat : List Nat) (out : RekeyOut)
    (h : rekey hasherF salt uid appnum keySize blockSize itemCount bufferSize dat =
      Except.ok out) :
    out.ops.filter isLogTouch =
      [Op.create .log, Op.write .log 0 logHeaderSize, Op.sync .log,
       Op.closeF .log, Op.eraseF .log] := by
  simp only [rekey] at h
  split at h
  · simp at h
  · rename_i passes hloop
    simp only [Except.ok.injEq] at h
    subst h
    simp only [List.filter_append, foldr_passOps_filter_isLogTouch]
    simp [isLogTouch]

/-- Witness for C2: the completed run at itemCount 1 whose log operations
are exactly creation, the header write, a sync, the close and the erase. -/
theorem rekey_log_ops_witness :
    ∃ out, rekey (fun _ _ => 0) 3 0 0 8 4096 1 4096 [] = Except.ok out ∧
      out.ops.filter isLogTouch =
        [Op.create .log, Op.write .log 0 logHeaderSize, Op.sync .log,
         Op.closeF .log, Op.eraseF .log] :=
  ⟨_, rfl, rekey_log_ops (fun _ _ => 0) 3 0 0 8 4096 1 4096 [] _ rfl⟩

theorem rekeyLoopF_length (cap keySize buckets modulus c : Nat)
    (hashF : List Nat → Nat) (dat : List Nat) :
    ∀ fuel b0 off l,
      rekeyLoopF cap keySize buckets modulus c hashF dat fuel b0 off = Except.ok l →
      l.length = (buckets - b0 + c) / (c + 1) := by
  intro fuel
  induction fuel with
  | zero => intro b0 off l h; simp [rekeyLoopF] at h
  | succ fuel ih =>
    intro b0 off l h
    simp only [rekeyLoopF] at h
    by_cases hb : buckets ≤ b0
    · rw [if_pos hb] at h
      simp only [Except.ok.injEq] at h
      subst h
      rw [List.length_nil, Nat.sub_eq_zero_of_le hb, Nat.zero_add,
        Nat.div_eq_of_lt (by omega)]
    · rw [if_neg hb] at h
      split at h
      · simp at h
      · rename_i st hscan
        split at h
        · simp at h
        · rename_i rest hrec
          simp only [Except.ok.injEq] at h
          subst h
          have hr := ih (b0 + (c + 1)) st.appendOff rest hrec
          simp only [List.length_cons, hr]
          have hm1 : 1 ≤ buckets - b0 := by omega
          set m := buckets - b0 with hmdef
          have hsub : buckets - (b0 + (c + 1)) = m - (c + 1) := by omega
          rw [hsub]
          by_cases hc : c + 1 ≤ m
          · have h1 : m - (c + 1) + c = m - 1 := by omega
            have h2 : m + c = m - 1 + (c + 1) := by omega
            rw [h1, h2, Nat.add_div_right _ (by omega)]
          · have h1 : m - (c + 1) + c = c := by omega
            have h2 : (m + c) / (c + 1) = 1 :=
              Nat.div_eq_of_lt_le (by omega) (by omega)
            rw [h1, h2, Nat.div_eq_of_lt (by omega)]

/-- C4 counterexample: with bufferSize 1 and block size 4096 (bucket count
3) the completed rekey performs 3 passes over the data file, while the
claimed formula with chunk = bufferSize / block_size = 0 yields no
well-defined pass count (0 under the Nat embedding of the division). -/
theorem rekey_passes_spec_formula_fails :
    ((rekey (fun _ _ => 0) 0 0 0 8 4096 300 1 []).map fun out =>
      out.passes.length) = Except.ok 3 ∧
    spec_rekey_passes (rekeyKh (fun _ _ => 0) 0 0 0 8 4096 300).buckets 1 4096 = 0 ∧
    (3 : Nat) ≠ 0 := by
  refine ⟨by rfl, by decide, by decide⟩

/-- C4 amended: a completed rekey performs exactly
ceil(buckets / chunk) passes (each pass one complete scan of the data
file), where chunk = max(1, bufferSize / block_size): the source clamps
the chunk to at least one bucket, so a bufferSize below the block size
degrades to one bucket per pass rather than leaving the formula
undefined. -/
theorem rekey_pass_count (hasherF : Nat → List Nat → Nat)
    (salt uid appnum keySize blockSize itemCount bufferSize : Nat)
    (dat : List Nat) (out : RekeyOut)
    (h : rekey hasherF salt uid appnum keySize blockSize itemCount bufferSize dat =
      Except.ok out) :
    out.passes.length =
      ((rekeyKh hasherF salt uid appnum keySize blockSize itemCount).buckets
          + max 1 (bufferSize / blockSize) - 1) / max 1 (bufferSize / blockSize) := by
  simp only [rekey] at h
  split at h
  · simp at h
  · rename_i passes hloop
    simp only [Except.ok.injEq] at h
    subst h
    have hlen := rekeyLoopF_length _ _ _ _ _ _ _ _ _ _ _ hloop
    simp only [hlen]
    set ch := max 1 (bufferSize / blockSize) with hch
    have hch1 : 1 ≤ ch := le_max_left 1 _
    have he : ch - 1 + 1 = ch := by omega
    rw [Nat.sub_zero, he]
    congr 1
    omega

/-- Witness for C4: at bucket count 3 and chunk 2 the completed rekey
performs ceil(3 / 2) = 2 passes. -/
theorem rekey_pass_count_witness :
    ∃ out, rekey (fun _ _ => 0) 0 0 0 8 4096 300 8192 [] = Except.ok out ∧
      out.passes.length =
        ((rekeyKh (fun _ _ => 0) 0 0 0 8 4096 300).buckets
            + max 1 (8192 / 4096) - 1) / max 1 (8192 / 4096) :=
  ⟨_, rfl, rekey_pass_count (fun _ _ => 0) 0 0 0 8 4096 300 8192 [] _ rfl⟩

theorem passOps_filter_isKeyWrite (blockSize : Nat) (p : PassOut) :
    (passOps blockSize p).filter isKeyWrite =
      [Op.write .key ((p.b0 + 1) * blockSize) ((p.b1 - p.b0) * blockSize)] := by
  unfold passOps
  rw [List.filter_append]
  have h1 : (p.spillWrites.map (fun w => Op.write .dat w.1 w.2)).filter isKeyWrite = [] := by
    induction p.spillWrites with
    | nil => simp
    | cons a l ih => simp [isKeyWrite, ih]
  rw [h1]
  simp [isKeyWrite]

theorem rekeyLoopF_windows (cap keySize buckets modulus c : Nat)
    (hashF : List Nat → Nat) (dat : List Nat) (pd : PassOut) :
    ∀ fuel b0 off l,
      rekeyLoopF cap keySize buckets modulus c hashF dat fuel b0 off = Except.ok l →
      ∀ i, i < l.length →
        (l.getD i pd).b0 = b0 + i * (c + 1) ∧
        (l.getD i pd).b1 = min (b0 + i * (c + 1) + (c + 1)) buckets := by
  intro fuel
  induction fuel with
  | zero => intro b0 off l h; simp [rekeyLoopF] at h
  | succ fuel ih =>
    intro b0 off l h
    simp only [rekeyLoopF] at h
    by_cases hb : buckets ≤ b0
    · rw [if_pos hb] at h
      simp only [Except.ok.injEq] at h
      subst h
      intro i hi
      simp at hi
    · rw [if_neg hb] at h
      split at h
      · simp at h
      · rename_i st hscan
        split at h
        · simp at h
        · rename_i rest hrec
          simp only [Except.ok.injEq] at h
          subst h
          intro i hi
          match i with
          | 0 => simp [List.getD]
          | i + 1 =>
            have hr := ih (b0 + (c + 1)) st.appendOff rest hrec i
              (by simp only [List.length_cons] at hi; omega)
            simp only [List.getD_cons_succ]
            refine ⟨?_, ?_⟩
            · rw [hr.1]; ring
            · rw [hr.2]; congr 1; ring

/-- C6: in a completed rekey, pass i covers the window [b0, b1) with
b0 = i * chunk and b1 = min(b0 + chunk, buckets), stores its finished
window through exactly one positioned key-file write, at offset
(b0 + 1) * block_size and of (b1 - b0) * block_size bytes, and that
write places the block of every bucket n in the window at key-file
offset (n + 1) * block_size. -/
theorem rekey_single_window_write (hasherF : Nat → List Nat → Nat)
    (salt uid appnum keySize blockSize itemCount bufferSize : Nat)
    (dat : List Nat) (out : RekeyOut)
    (h : rekey hasherF salt uid appnum keySize blockSize itemCount bufferSize dat =
      Except.ok out) :
    ∀ i, i < out.passes.length →
      (out.passes.getD i ⟨0, 0, [], []⟩).b0 = i * max 1 (bufferSize / blockSize) ∧
      (out.passes.getD i ⟨0, 0, [], []⟩).b1 =
        min ((out.passes.getD i ⟨0, 0, [], []⟩).b0 + max 1 (bufferSize / blockSize))
          (rekeyKh hasherF salt uid appnum keySize blockSize itemCount).buckets ∧
      (passOps blockSize (out.passes.getD i ⟨0, 0, [], []⟩)).filter isKeyWrite =
        [Op.write .key (((out.passes.getD i ⟨0, 0, [], []⟩).b0 + 1) * blockSize)
          (((out.passes.getD i ⟨0, 0, [], []⟩).b1 -
            (out.passes.getD i ⟨0, 0, [], []⟩).b0) * blockSize)] ∧
      ∀ n, (out.passes.getD i ⟨0, 0, [], []⟩).b0 ≤ n →
        n < (out.passes.getD i ⟨0, 0, [], []⟩).b1 →
        ((out.passes.getD i ⟨0, 0, [], []⟩).b0 + 1) * blockSize +
            (n - (out.passes.getD i ⟨0, 0, [], []⟩).b0) * blockSize =
          (n + 1) * blockSize := by
  simp only [rekey] at h
  split at h
  · simp at h
  · rename_i passes hloop
    simp only [Except.ok.injEq] at h
    subst h
    intro i hi
    have hw := rekeyLoopF_windows _ _ _ _ _ _ _ ⟨0, 0, [], []⟩ _ _ _ _ hloop i hi
    set ch := max 1 (bufferSize / blockSize) with hch
    have hch1 : 1 ≤ ch := le_max_left 1 _
    have he : ch - 1 + 1 = ch := by omega
    rw [he] at hw
    refine ⟨by rw [hw.1]; omega, ?_, passOps_filter_isKeyWrite _ _, ?_⟩
    · rw [hw.2, hw.1]
    · intro n h1 h2
      rw [← Nat.add_mul]
      congr 1
      omega

/-- Witness for C6 at pass 0 of a two-pass rekey (bucket count 3,
chunk 2): the window is [0, 2) and the single key write is 2 blocks at
offset 1 * block_size. -/
theorem rekey_single_window_write_witness :
    ∃ out, rekey (fun _ _ => 0) 0 0 0 8 4096 300 8192 [] = Except.ok out ∧
      0 < out.passes.length ∧
      ((out.passes.getD 0 ⟨0, 0, [], []⟩).b0 = 0 * max 1 (8192 / 4096) ∧
       (out.passes.getD 0 ⟨0, 0, [], []⟩).b1 =
         min ((out.passes.getD 0 ⟨0, 0, [], []⟩).b0 + max 1 (8192 / 4096))
           (rekeyKh (fun _ _ => 0) 0 0 0 8 4096 300).buckets ∧
       (passOps 4096 (out.passes.getD 0 ⟨0, 0, [], []⟩)).filter isKeyWrite =
         [Op.write .key (((out.passes.getD 0 ⟨0, 0, [], []⟩).b0 + 1) * 4096)
           (((out.passes.getD 0 ⟨0, 0, [], []⟩).b1 -
             (out.passes.getD 0 ⟨0, 0, [], []⟩).b0) * 4096)] ∧
       ∀ n, (out.passes.getD 0 ⟨0, 0, [], []⟩).b0 ≤ n →
         n < (out.passes.getD 0 ⟨0, 0, [], []⟩).b1 →
         ((out.passes.getD 0 ⟨0, 0, [], []⟩).b0 + 1) * 4096 +
             (n - (out.passes.getD 0 ⟨0, 0, [], []⟩).b0) * 4096 =
           (n + 1) * 4096) :=
  ⟨_, rfl, by decide,
    rekey_single_window_write (fun _ _ => 0) 0 0 0 8 4096 300 8192 [] _ rfl 0 (by decide)⟩

/-- C7 counterexample: in the completed rekey trace the key-file header
write (offset 0) and its sync come strictly before the one-byte
pre-allocation write at offset (buckets + 1) * block_size - 1, so the
allocation does not happen before the header is committed. -/
theorem rekey_alloc_not_before_header :
    ((rekey (fun _ _ => 0) 0 0 0 8 4096 1 4096 []).map fun out =>
      decide (out.ops.findIdx (fun op => op == Op.write .key 8191 1) <
              out.ops.findIdx (fun op => op == Op.write .key 0 4096))) =
      Except.ok false := by rfl

/-- C7 amended: rekey allocates the key file to exactly
(buckets + 1) * block_size bytes by writing one zero byte at offset
(buckets + 1) * block_size - 1 followed by a sync, and this allocation
happens after the header block is written and synced and before any
bucket-window write: the first eight operations of the trace are log
creation, key creation, the log header write and sync, the key header
write and sync, then the pre-allocation write and sync, and their key-file
write extent is (buckets + 1) * block_size. -/
theorem rekey_alloc_after_header (hasherF : Nat → List Nat → Nat)
    (salt uid appnum keySize blockSize itemCount bufferSize : Nat)
    (dat : List Nat) (out : RekeyOut)
    (h : rekey hasherF salt uid appnum keySize blockSize itemCount bufferSize dat =
      Except.ok out) (hbs : 1 ≤ blockSize) :
    out.ops.take 8 = [Op.create .log, Op.create .key,
      Op.write .log 0 logHeaderSize, Op.sync .log,
      Op.write .key 0 blockSize, Op.sync .key,
      Op.write .key
        (((rekeyKh hasherF salt uid appnum keySize blockSize itemCount).buckets + 1)
          * blockSize - 1) 1,
      Op.sync .key] ∧
    keyWriteExtent (out.ops.take 8) =
      ((rekeyKh hasherF salt uid appnum keySize blockSize itemCount).buckets + 1)
        * blockSize := by
  simp only [rekey] at h
  split at h
  · simp at h
  · rename_i passes hloop
    simp only [Except.ok.injEq] at h
    subst h
    have htake : (([Op.create .log, Op.create .key,
        Op.write .log 0 logHeaderSize, Op.sync .log,
        Op.write .key 0 blockSize, Op.sync .key,
        Op.write .key
          (((rekeyKh hasherF salt uid appnum keySize blockSize itemCount).buckets + 1)
            * blockSize - 1) 1,
        Op.sync .key]
        ++ passes.foldr (fun p acc => passOps blockSize p ++ acc) []
        ++ [Op.closeF .log, Op.eraseF .log]).take 8 : List Op) =
        [Op.create .log, Op.create .key,
         Op.write .log 0 logHeaderSize, Op.sync .log,
         Op.write .key 0 blockSize, Op.sync .key,
         Op.write .key
           (((rekeyKh hasherF salt uid appnum keySize blockSize itemCount).buckets + 1)
             * blockSize - 1) 1,
         Op.sync .key] := rfl
    refine ⟨htake, ?_⟩
    rw [htake]
    set B := (rekeyKh hasherF salt uid appnum keySize blockSize itemCount).buckets with hB
    have hge : blockSize ≤ (B + 1) * blockSize := by
      calc blockSize = 1 * blockSize := (one_mul _).symm
        _ ≤ (B + 1) * blockSize := Nat.mul_le_mul_right _ (by omega)
    have hpos : 1 ≤ (B + 1) * blockSize := le_trans hbs hge
    simp only [keyWriteExtent, List.foldl]
    rw [Nat.sub_add_cancel hpos]
    rw [Nat.zero_max, Nat.zero_add]
    exact max_eq_right hge

/-- Witness for C7 at bucket count 1 and block size 4096: the first eight
operations and the 8192-byte extent. -/
theorem rekey_alloc_after_header_witness :
    ∃ out, rekey (fun _ _ => 0) 0 0 0 8 4096 1 4096 [] = Except.ok out ∧
      (out.ops.take 8 = [Op.create .log, Op.create .key,
        Op.write .log 0 logHeaderSize, Op.sync .log,
        Op.write .key 0 4096, Op.sync .key,
        Op.write .key
          (((rekeyKh (fun _ _ => 0) 0 0 0 8 4096 1).buckets + 1) * 4096 - 1) 1,
        Op.sync .key] ∧
      keyWriteExtent (out.ops.take 8) =
        ((rekeyKh (fun _ _ => 0) 0 0 0 8 4096 1).buckets + 1) * 4096) :=
  ⟨_, rfl, rekey_alloc_after_header (fun _ _ => 0) 0 0 0 8 4096 1 4096 [] _ rfl
    (by decide)⟩

/-- C8: in the headers a completed rekey produces, the key header pepper
and the log header pepper both equal the configured hasher applied to the
salt encoded as 8 big-endian bytes, and both headers carry the same
salt. -/
theorem rekey_pepper_salt (hasherF : Nat → List Nat → Nat)
    (salt uid appnum keySize blockSize itemCount bufferSize : Nat)
    (dat : List Nat) (out : RekeyOut)
    (h : rekey hasherF salt uid appnum keySize blockSize itemCount bufferSize dat =
      Except.ok out) :
    out.kh.pepper = hasherF out.kh.salt (be64 out.kh.salt) ∧
    out.lh.pepper = hasherF out.lh.salt (be64 out.lh.salt) ∧
    out.lh.salt = out.kh.salt := by
  simp only [rekey] at h
  split at h
  · simp at h
  · rename_i passes hloop
    simp only [Except.ok.injEq] at h
    subst h
    simp [rekeyKh, rekeyLh, pepperOf]

/-- Witness for C8 with a hasher that depends on both seed and bytes and
salt 5: both peppers evaluate to the hasher of the big-endian salt
bytes. -/
theorem rekey_pepper_salt_witness :
    ∃ out, rekey (fun s k => 1000 * s + k.headD 0) 5 1 2 8 4096 1 4096 [] =
        Except.ok out ∧
      (out.kh.pepper = (fun s k => 1000 * s + k.headD 0) out.kh.salt (be64 out.kh.salt) ∧
       out.lh.pepper = (fun s k => 1000 * s + k.headD 0) out.lh.salt (be64 out.lh.salt) ∧
       out.lh.salt = out.kh.salt) :=
  ⟨_, rfl, rekey_pepper_salt (fun s k => 1000 * s + k.headD 0) 5 1 2 8 4096 1 4096 [] _ rfl⟩

theorem scanDataF_irrel (P : ScanParams) (hashF : List Nat → Nat) :
    ∀ f1 f2 bytes offset st, bytes.length < f1 → bytes.length < f2 →
      scanDataF P hashF f1 bytes offset st = scanDataF P hashF f2 bytes offset st := by
  intro f1
  induction f1 with
  | zero => intro f2 bytes offset st h1 _; omega
  | succ f1 ih =>
    intro f2 bytes offset st h1 h2
    match f2, h2 with
    | f2 + 1, h2 =>
      cases bytes with
      | nil => simp [scanDataF]
      | cons b bs =>
        simp only [scanDataF]
        by_cases h6 : (b :: bs).length < 6
        · simp only [if_pos h6]
        · simp only [if_neg h6]
          by_cases hsz : 0 < beDecode ((b :: bs).take 6)
          · simp only [if_pos hsz]
            by_cases hks :
                ((b :: bs).drop 6).length < P.keySize + beDecode ((b :: bs).take 6)
            · simp only [if_pos hks]
            · simp only [if_neg hks]
              have hlen1 : (b :: bs).length ≤ f1 := by omega
              have hlen2 : (b :: bs).length ≤ f2 := by omega
              have hdl : ((b :: bs).drop 6).length = (b :: bs).length - 6 :=
                List.length_drop 6 (b :: bs)
              have hnew : ((b :: bs).drop
                  (6 + P.keySize + beDecode ((b :: bs).take 6))).length =
                  (b :: bs).length - (6 + P.keySize + beDecode ((b :: bs).take 6)) :=
                List.length_drop _ _
              by_cases hout :
                  bucket_index (hashF (((b :: bs).drop 6).take P.keySize))
                      P.buckets P.modulus < P.b0 ∨
                    P.b1 ≤ bucket_index (hashF (((b :: bs).drop 6).take P.keySize))
                      P.buckets P.modulus
              · simp only [if_pos hout]
                exact ih _ _ _ _ (by omega) (by omega)
              · simp only [if_neg hout]
                exact ih _ _ _ _ (by omega) (by omega)
          · simp only [if_neg hsz]
            by_cases h2b : ((b :: bs).drop 6).length < 2
            · simp only [if_pos h2b]
            · simp only [if_neg h2b]
              by_cases hsb : ((b :: bs).drop 6).length - 2 <
                  beDecode (((b :: bs).drop 6).take 2)
              · simp only [if_pos hsb]
              · simp only [if_neg hsb]
                have hlen1 : (b :: bs).length ≤ f1 := by omega
                have hlen2 : (b :: bs).length ≤ f2 := by omega
                have hdl : ((b :: bs).drop 6).length = (b :: bs).length - 6 :=
                  List.length_drop 6 (b :: bs)
                have hnew : ((b :: bs).drop
                    (8 + beDecode (((b :: bs).drop 6).take 2))).length =
                    (b :: bs).length - (8 + beDecode (((b :: bs).drop 6).take 2)) :=
                  List.length_drop _ _
                exact ih _ _ _ _ (by omega) (by omega)

/-- C5: when the rekey data-file scan reads a record whose 48-bit size
field is zero (a spill record), it reads the following 16-bit bucket
size, advances past exactly that many payload bytes, and continues the
scan at the next record with the window, append offset and spill writes
unchanged, reporting no error: scanning a spill record followed by rest
equals scanning rest alone. -/
theorem rekey_scan_skips_spill (P : ScanParams) (hashF : List Nat → Nat)
    (payload rest : List Nat) (offset : Nat) (st : ScanState)
    (hp : payload.length < 65536) :
    scanData P hashF (encodeSpillRec payload ++ rest) offset st =
      scanData P hashF rest (offset + 8 + payload.length) st := by
  unfold scanData encodeSpillRec
  simp only [List.cons_append]
  simp only [scanDataF]
  have hlen : (0 :: 0 :: 0 :: 0 :: 0 :: 0 :: (payload.length / 256) ::
      (payload.length % 256) :: (payload ++ rest)).length =
      payload.length + rest.length + 8 := by
    simp [List.length_append]
  rw [if_neg (by rw [hlen]; omega)]
  have htake6 : (0 :: 0 :: 0 :: 0 :: 0 :: 0 :: (payload.length / 256) ::
      (payload.length % 256) :: (payload ++ rest)).take 6 =
      [0, 0, 0, 0, 0, 0] := rfl
  have hbd0 : beDecode [0, 0, 0, 0, 0, 0] = 0 := rfl
  rw [htake6, hbd0]
  rw [if_neg (by omega)]
  have hdrop6 : (0 :: 0 :: 0 :: 0 :: 0 :: 0 :: (payload.length / 256) ::
      (payload.length % 256) :: (payload ++ rest)).drop 6 =
      (payload.length / 256) :: (payload.length % 256) :: (payload ++ rest) := rfl
  rw [hdrop6]
  have hlen2 : ((payload.length / 256) :: (payload.length % 256) ::
      (payload ++ rest)).length = payload.length + rest.length + 2 := by
    simp [List.length_append]
  rw [if_neg (by rw [hlen2]; omega)]
  have htake2 : ((payload.length / 256) :: (payload.length % 256) ::
      (payload ++ rest)).take 2 = [payload.length / 256, payload.length % 256] := rfl
  have hbd2 : beDecode [payload.length / 256, payload.length % 256] =
      payload.length := by
    simp only [beDecode, List.foldl]
    omega
  rw [htake2, hbd2]
  rw [if_neg (by rw [hlen2]; omega)]
  have hdrop : (0 :: 0 :: 0 :: 0 :: 0 :: 0 :: (payload.length / 256) ::
      (payload.length % 256) :: (payload ++ rest)).drop (8 + payload.length) =
      rest := by
    rw [← List.drop_drop]
    have h8 : (0 :: 0 :: 0 :: 0 :: 0 :: 0 :: (payload.length / 256) ::
        (payload.length % 256) :: (payload ++ rest)).drop 8 = payload ++ rest := rfl
    rw [h8]
    exact List.drop_left payload rest
  rw [hdrop]
  exact scanDataF_irrel P hashF _ _ rest (offset + 8 + payload.length) st
    (by rw [hlen]; omega) (by omega)

/-- Witness for C5: skipping the one-byte spill record with payload [9]
before an empty remainder, from a nonempty scan state. -/
theorem rekey_scan_skips_spill_witness :
    [(9 : Nat)].length < 65536 ∧
    scanData ⟨1, 1, 1, 1, 0, 1⟩ (fun _ => 0) (encodeSpillRec [9] ++ []) 64
        ⟨[Bucket.emptyB], 100, []⟩ =
      scanData ⟨1, 1, 1, 1, 0, 1⟩ (fun _ => 0) [] (64 + 8 + [(9 : Nat)].length)
        ⟨[Bucket.emptyB], 100, []⟩ :=
  ⟨by decide, rekey_scan_skips_spill ⟨1, 1, 1, 1, 0, 1⟩ (fun _ => 0) [9] [] 64
    ⟨[Bucket.emptyB], 100, []⟩ (by decide)⟩

end NuDB
